import Mathlib

/-!
Shallow embedding of
src/research_experiments/fip/src/fip/tasks/scm_learning_with_ground_truth/scm_learning_true_graph.py
(class SCMLearningTrueGraph).

Torch float tensors are modelled by lists of exact values.  Where IEEE
semantics matters (the gain transform divides by expressions that can be
zero, and torch division then yields NaN or an infinity instead of
raising), scalars are modelled by EF, rationals extended with NaN and the
two infinities, with total IEEE-style arithmetic and comparisons (every
comparison involving NaN is false).  Elsewhere plain rationals are used.
The external SCMLearning model and the causica metric helpers are not
under src/: the model is abstracted as a structure of functions, and the
pieces the claims need (threshold graphs, F1 scores) are modelled from the
spec, marked in their doc comments.
-/

/-- Extended float: NaN, the infinities, or a finite (exact) value. -/
inductive EF : Type where
  | nan : EF
  | pinf : EF
  | ninf : EF
  | fin : ℚ → EF
deriving DecidableEq

def EF.isNan : EF → Bool
  | .nan => true
  | _ => false

def EF.neg : EF → EF
  | .nan => .nan
  | .pinf => .ninf
  | .ninf => .pinf
  | .fin q => .fin (-q)

/-- IEEE addition: NaN propagates, opposite infinities give NaN. -/
def EF.add : EF → EF → EF
  | .nan, _ => .nan
  | _, .nan => .nan
  | .pinf, .ninf => .nan
  | .ninf, .pinf => .nan
  | .pinf, _ => .pinf
  | _, .pinf => .pinf
  | .ninf, _ => .ninf
  | _, .ninf => .ninf
  | .fin a, .fin b => .fin (a + b)

def EF.sub (a b : EF) : EF := EF.add a (EF.neg b)

/-- IEEE multiplication: NaN propagates, infinity times zero gives NaN. -/
def EF.mul : EF → EF → EF
  | .nan, _ => .nan
  | _, .nan => .nan
  | .pinf, .pinf => .pinf
  | .pinf, .ninf => .ninf
  | .ninf, .pinf => .ninf
  | .ninf, .ninf => .pinf
  | .pinf, .fin b => if 0 < b then .pinf else if b < 0 then .ninf else .nan
  | .fin a, .pinf => if 0 < a then .pinf else if a < 0 then .ninf else .nan
  | .ninf, .fin b => if 0 < b then .ninf else if b < 0 then .pinf else .nan
  | .fin a, .ninf => if 0 < a then .ninf else if a < 0 then .pinf else .nan
  | .fin a, .fin b => .fin (a * b)

/-- IEEE division: NaN propagates, zero over zero and infinity over
infinity give NaN, a nonzero finite value over zero gives a signed
infinity.  Torch raises no exception here. -/
def EF.div : EF → EF → EF
  | .nan, _ => .nan
  | _, .nan => .nan
  | .pinf, .pinf => .nan
  | .pinf, .ninf => .nan
  | .ninf, .pinf => .nan
  | .ninf, .ninf => .nan
  | .pinf, .fin b => if 0 ≤ b then .pinf else .ninf
  | .ninf, .fin b => if 0 ≤ b then .ninf else .pinf
  | .fin _, .pinf => .fin 0
  | .fin _, .ninf => .fin 0
  | .fin a, .fin b =>
    if b = 0 then (if a = 0 then .nan else if 0 < a then .pinf else .ninf)
    else .fin (a / b)

/-- IEEE comparison: any comparison with NaN is false. -/
def EF.le : EF → EF → Bool
  | .nan, _ => false
  | _, .nan => false
  | .ninf, _ => true
  | _, .pinf => true
  | .pinf, _ => false
  | _, .ninf => false
  | .fin a, .fin b => decide (a ≤ b)

def EF.lt (a b : EF) : Bool := EF.le a b && !(a == b)

/-- The order torch sorting uses on a float tensor: ascending, with NaN
sorted after every number. -/
def efKeyLE (a b : EF) : Bool :=
  if a.isNan then b.isNan else (b.isNan || EF.le a b)

/-- Sum of a float tensor, as torch.sum computes it over a 1-D tensor. -/
def efSum : List EF → EF
  | [] => EF.fin 0
  | x :: xs => EF.add x (efSum xs)

/-- torch.trapz over paired (y, x) samples:
the sum of (x2 - x1) * (y1 + y2) / 2 over adjacent pairs. -/
def trapzPairs : List (EF × EF) → EF
  | (y1, x1) :: (y2, x2) :: rest =>
    EF.add (EF.mul (EF.sub x2 x1) (EF.div (EF.add y1 y2) (EF.fin 2)))
      (trapzPairs ((y2, x2) :: rest))
  | _ => EF.fin 0

/-- torch.trapz(y, x). -/
def trapzEF (ys xs : List EF) : EF := trapzPairs (ys.zip xs)

/-- The gain transform of log_pr_and_roc, applied elementwise to the raw
precision and recall tensors:
(value - pos_ratio) / ((1 - pos_ratio) * value). -/
def gainEF (p v : EF) : EF :=
  EF.div (EF.sub v p) (EF.mul (EF.sub (EF.fin 1) p) v)

/-- pos_ratio = torch.sum(true_graph) / (num_nodes * num_nodes), with
num_nodes = true_graph.shape[-1]. -/
def pos_ratio (g : List (List ℚ)) : ℚ :=
  (g.map (fun row => row.sum)).sum / (((g.headD []).length : ℚ) * ((g.headD []).length : ℚ))

/-- Insert one element into a list sorted by the boolean order le. -/
def insertByKey {α : Type} (le : α → α → Bool) (x : α) : List α → List α
  | [] => [x]
  | y :: ys => if le x y then x :: y :: ys else y :: insertByKey le x ys

/-- Insertion sort by the boolean order le.  Models tensor.argsort()
followed by indexing every lockstep tensor with the resulting
permutation (sorting the tuples by the key component). -/
def sortByKey {α : Type} (le : α → α → Bool) : List α → List α
  | [] => []
  | x :: xs => insertByKey le x (sortByKey le xs)

/-- Membership of a closed unit interval as log_pr_and_roc tests it:
(x >= 0) & (x <= 1), with IEEE comparisons (false on NaN). -/
def inUnit (x : EF) : Bool := EF.le (EF.fin 0) x && EF.le x (EF.fin 1)

/-- The (recall-gain, precision-gain) points of log_pr_and_roc: the gain
transform applied elementwise to the raw recall and precision tensors,
paired up (recall first: the curve is later sorted by recall-gain). -/
def prGainPoints (p : EF) (precs recs : List EF) : List (EF × EF) :=
  (recs.map (gainEF p)).zip (precs.map (gainEF p))

/-- The gain points sorted by ascending recall-gain
(index_reordering_pr_gain = list_recall_pr_gain.argsort(), applied to
both tensors). -/
def prSortedPoints (p : EF) (precs recs : List EF) : List (EF × EF) :=
  sortByKey (fun u v => efKeyLE u.1 v.1) (prGainPoints p precs recs)

/-- The surviving points: the AND of the two unit-interval membership
masks (ind_recall & ind_precision) over the sorted points. -/
def prSurvivors (p : EF) (precs recs : List EF) : List (EF × EF) :=
  (prSortedPoints p precs recs).filter (fun q => inUnit q.1 && inUnit q.2)

/-- What the precision-recall-gain half of log_pr_and_roc produces:
the AUC value it logs (none when it logs nothing) and whether the
diagnostic notice ("No indices found for precision recall") is printed. -/
structure PRResult where
  auc : Option EF
  notice : Bool
deriving DecidableEq

/-- The precision-recall-gain half of log_pr_and_roc (source lines
199-246).  The guard is torch.sum(common_ind) >= 0.5: the sum of the
boolean mask is the number of surviving points, compared against 1/2.
When it passes, the recall-gain axis is padded with 0 in front and 1 at
the back, the precision-gain values with their own first value in front
and 0 at the back, and torch.trapz(precision, recall) is logged. -/
def prGainSection (p : EF) (precs recs : List EF) : PRResult :=
  let s := prSurvivors p precs recs
  if (1 / 2 : ℚ) ≤ (s.length : ℚ) then
    { auc := some (trapzEF
        ((s.headD (EF.fin 0, EF.fin 0)).2 :: s.map Prod.snd ++ [EF.fin 0])
        (EF.fin 0 :: s.map Prod.fst ++ [EF.fin 1])),
      notice := false }
  else
    { auc := none, notice := true }

/-- The (fallout, recall) pairs sorted by ascending fallout, recall
reordered in lockstep, no gain transform (source lines 248-253). -/
def rocSorted (fallouts recalls : List EF) : List (EF × EF) :=
  sortByKey (fun u v => efKeyLE u.1 v.1) (fallouts.zip recalls)

/-- The recall-fallout half of log_pr_and_roc (source lines 248-272):
when torch.sum of the sorted fallout tensor is > 0.0, both tensors are
padded with a (0,0) front and (1,1) back endpoint and
torch.trapz(recall, fallout) is logged; otherwise nothing is logged and
nothing is raised. -/
def rocSection (fallouts recalls : List EF) : Option EF :=
  let fs := (rocSorted fallouts recalls).map Prod.fst
  let rs := (rocSorted fallouts recalls).map Prod.snd
  if EF.lt (EF.fin 0) (efSum fs) then
    some (trapzEF (EF.fin 0 :: rs ++ [EF.fin 1]) (EF.fin 0 :: fs ++ [EF.fin 1]))
  else
    none

/-- A fallout value as the metric collaborator produces it: a finite
nonnegative rate. -/
def isFinNonneg : EF → Bool
  | .fin q => decide (0 ≤ q)
  | _ => false

/-- torch.linspace a b steps: evenly spaced points from a to b inclusive. -/
def linspace (a b : ℚ) (steps : ℕ) : List ℚ :=
  if steps = 1 then [a]
  else (List.range steps).map (fun k => a + (b - a) * (k : ℚ) / ((steps : ℚ) - 1))

/-- (continuous_graph > threshold).float(): entrywise binarization. -/
def binarize (g : List (List ℚ)) (t : ℚ) : List (List ℚ) :=
  g.map (fun row => row.map (fun v => if t < v then (1 : ℚ) else 0))

/-- Entry (i, j) of a matrix, 0 outside the bounds. -/
def entryQ (g : List (List ℚ)) (i j : ℕ) : ℚ := ((g.getD i []).getD j 0)

/-- Edge (i, j) is present (nonzero entry) in a 0/1 graph matrix. -/
def isPos (g : List (List ℚ)) (i j : ℕ) : Bool := decide (entryQ g i j ≠ 0)

/-- An undirected edge between i and j is present. -/
def isAdj (g : List (List ℚ)) (i j : ℕ) : Bool := isPos g i j || isPos g j i

/-- The number of node pairs (i, j) of an n-node graph satisfying p. -/
def countPairs (n : ℕ) (p : ℕ → ℕ → Bool) : ℕ :=
  ((List.range n).map (fun i => ((List.range n).filter (fun j => p i j)).length)).sum

/-- Modelled from the spec: orientation_f1 of
causica.graph.evaluation_metrics (not under src/) is the F1 score
requiring correct edge direction, 2 TP / (2 TP + FP + FN) over directed
node pairs (0 in the degenerate all-empty case). -/
def orientation_f1 (t g : List (List ℚ)) : ℚ :=
  let n := t.length
  let tp := countPairs n (fun i j => isPos t i j && isPos g i j)
  let fp := countPairs n (fun i j => !(isPos t i j) && isPos g i j)
  let fnc := countPairs n (fun i j => isPos t i j && !(isPos g i j))
  (2 * (tp : ℚ)) / (2 * (tp : ℚ) + (fp : ℚ) + (fnc : ℚ))

/-- Modelled from the spec: adjacency_f1 of
causica.graph.evaluation_metrics (not under src/) is the F1 score
treating edges as undirected (presence only). -/
def adjacency_f1 (t g : List (List ℚ)) : ℚ :=
  let n := t.length
  let tp := countPairs n (fun i j => isAdj t i j && isAdj g i j)
  let fp := countPairs n (fun i j => !(isAdj t i j) && isAdj g i j)
  let fnc := countPairs n (fun i j => isAdj t i j && !(isAdj g i j))
  (2 * (tp : ℚ)) / (2 * (tp : ℚ) + (fp : ℚ) + (fnc : ℚ))

/-- The number of predicted positive edges of a 0/1 graph matrix. -/
def countPos (g : List (List ℚ)) : ℕ :=
  (g.map (fun row => (row.filter (fun v => decide (v ≠ 0))).length)).sum

/-- The external SCMLearning model (fip.methods.scm_learning, not under
src/), abstracted as the functions this module calls on it plus the
settable special_mask field. -/
structure SCMMethod where
  aggregatedGraph : List (List ℚ) → List (List ℚ)
  itePred : List (List ℚ) → List ℚ → List ℚ → ℕ → List ℚ → Option (List (List ℚ)) → List (List ℚ)
  specialMask : Option (List (List ℚ))

/-- The mutable attributes of an SCMLearningTrueGraph instance that the
claims concern: the registered threshold buffer, the held model, the
setup guard and the statistics setup caches. -/
structure TrueGraphState where
  threshold : List ℚ
  method : SCMMethod
  isSetup : Bool
  standardize : Bool
  meanData : List ℚ
  stdData : List ℚ

/-- What the constructor binds: the threshold buffer is registered as
torch.linspace(0.001, 1.0, steps=10), is_setup is False, and the
statistics attributes do not exist yet (modelled as defaults). -/
def initState (m : SCMMethod) : TrueGraphState :=
  { threshold := linspace (1 / 1000) 1 10
    method := m
    isSetup := false
    standardize := false
    meanData := []
    stdData := [] }

/-- predict_graph: binarize the mean-mode aggregated continuous graph at
the given threshold (the default threshold is 0.1). -/
def predict_graph (s : TrueGraphState) (x : List (List ℚ)) (threshold : ℚ) : List (List ℚ) :=
  binarize (s.method.aggregatedGraph x) threshold

/-- Modelled from the spec: get_threshold_causal_graph of the external
SCMLearning model (not under src/) binarizes the continuous causal graph
of the batch into one candidate binary graph per threshold of the sweep
(spec section 3, threshold sweep). -/
def get_threshold_causal_graph (s : TrueGraphState) (x : List (List ℚ)) (ts : List ℚ) :
    List (List (List ℚ)) :=
  ts.map (fun t => binarize (s.method.aggregatedGraph x) t)

/-- max() over a generator of scalars, as Python computes it (seeded by
the first element; the source always applies it to 100 graphs). -/
def listMax : List ℚ → ℚ
  | [] => 0
  | x :: xs => xs.foldl max x

/-- The scalar metrics log_graph_metrics logs for one batch, and the
family of sweep graphs it returns. -/
structure GraphMetricsOut where
  adjF1Pred : ℚ
  orientF1Pred : ℚ
  adjF1Best : ℚ
  orientF1Best : ℚ
  graphs : List (List (List ℚ))

/-- log_graph_metrics: the fixed-threshold metrics come from
predict_graph at the default threshold 0.1; the best metrics are the max
of the same F1 over the family of graphs produced for the fresh sweep
torch.linspace(0.001, 1.0, steps=100). -/
def log_graph_metrics (s : TrueGraphState) (x tg : List (List ℚ)) : GraphMetricsOut :=
  let gPred := predict_graph s x (1 / 10)
  let graphs := get_threshold_causal_graph s x (linspace (1 / 1000) 1 100)
  { adjF1Pred := adjacency_f1 tg gPred
    orientF1Pred := orientation_f1 tg gPred
    adjF1Best := listMax (graphs.map (adjacency_f1 tg))
    orientF1Best := listMax (graphs.map (orientation_f1 tg))
    graphs := graphs }

/-- train_data of the data module: the cached statistics and the
(possibly absent) ground-truth graph. -/
structure TrainData where
  meanData : List ℚ
  stdData : List ℚ
  trueGraph : Option (List (List ℚ))

/-- The NumpyTensorDataModule interface setup consumes. -/
structure NumpyTensorDataModule where
  standardize : Bool
  trainData : TrainData

/-- The exceptions setup can raise: the TypeError for a wrong data
module, the AttributeError None.to(device) raises when the true graph is
absent, and the (unreachable) explicit ValueError. -/
inductive SetupError : Type where
  | typeError : SetupError
  | attributeError : SetupError
  | valueError : SetupError
deriving DecidableEq

/-- setup: a no-op once is_setup is True; otherwise it requires a
NumpyTensorDataModule (TypeError), caches standardize and the mean/std
statistics, and binds the true graph as the model's special_mask.  The
source computes datamodule.train_data.true_graph.to(self.device) BEFORE
its `if true_graph is None` test, so an absent graph raises
AttributeError from the .to call and the explicit ValueError branch is
unreachable. -/
def setup (dm : Option NumpyTensorDataModule) (s : TrueGraphState) :
    Except SetupError TrueGraphState :=
  if s.isSetup then Except.ok s
  else
    match dm with
    | none => Except.error SetupError.typeError
    | some d =>
      match d.trainData.trueGraph with
      | none => Except.error SetupError.attributeError
      | some g =>
        Except.ok
          { s with
            standardize := d.standardize
            meanData := d.trainData.meanData
            stdData := d.trainData.stdData
            method := { s.method with specialMask := some g }
            isSetup := true }

/-- One counterfactual test batch:
(f_data, n_data, cf_data, int_index, int_values). -/
structure CFBatch where
  fData : List (List ℚ)
  nData : List (List ℚ)
  cfData : List (List ℚ)
  intIndex : ℕ
  intValues : List ℚ

/-- The mean substitute the counterfactual step passes to
ite_prediction: the cached mean when the pipeline standardizes,
torch.zeros_like(mean_data) otherwise. -/
def cf_mean_used (s : TrueGraphState) : List ℚ :=
  if s.standardize then s.meanData else List.replicate s.meanData.length 0

/-- The std substitute the counterfactual step passes to
ite_prediction: the cached std when the pipeline standardizes,
torch.ones_like(std_data) otherwise. -/
def cf_std_used (s : TrueGraphState) : List ℚ :=
  if s.standardize then s.stdData else List.replicate s.stdData.length 1

/-- Rows standardized with the cached statistics:
(rows - mean_data) / std_data, broadcast per feature. -/
def stdize_rows (m : List (List ℚ)) (mean std : List ℚ) : List (List ℚ) :=
  m.map (fun r => List.zipWith (fun x sd => x / sd) (List.zipWith (fun x mu => x - mu) r mean) std)

/-- Elementwise difference of two batches of rows. -/
def matSub (a b : List (List ℚ)) : List (List ℚ) :=
  List.zipWith (List.zipWith (fun x y => x - y)) a b

/-- A batch of rows divided by a per-feature vector (n_data / std_data). -/
def matDivVec (m : List (List ℚ)) (v : List ℚ) : List (List ℚ) :=
  m.map (fun r => List.zipWith (fun x sd => x / sd) r v)

/-- Mean of a list of rationals (sum over length). -/
def listMeanQ (l : List ℚ) : ℚ := l.sum / (l.length : ℚ)

/-- torch.mean(torch.sqrt(torch.mean(rows ** 2, dim=1))): the root mean
square per sample, averaged over the batch.  The square root leaves the
rationals, so the logged value lives in ℝ. -/
noncomputable def rmse_loss (rows : List (List ℚ)) : ℝ :=
  ((rows.map (fun r => Real.sqrt ((listMeanQ (r.map (fun x => x * x)) : ℚ) : ℝ))).sum) /
    ((rows.length : ℕ) : ℝ)

/-- The four RMSE scalars test_step_cf logs. -/
structure CFOut where
  rmseCf : ℝ
  rmseCfFakeNoise : ℝ
  rmseCfStd : ℝ
  rmseCfStdFakeNoise : ℝ

/-- test_step_cf: predict the counterfactual data with ite_prediction
(without and with the inferred noise), then log the raw RMSE losses
against cf_data and the "standardized" losses computed after shifting
and scaling BOTH sides with the cached mean_data/std_data (not with the
zero/one substitutes). -/
noncomputable def test_step_cf (s : TrueGraphState) (b : CFBatch) : CFOut :=
  let meanUsed := cf_mean_used s
  let stdUsed := cf_std_used s
  let nHat := if s.standardize then matDivVec b.nData s.stdData else b.nData
  let cfPredFake := s.method.itePred b.fData meanUsed stdUsed b.intIndex b.intValues none
  let cfPred := s.method.itePred b.fData meanUsed stdUsed b.intIndex b.intValues (some nHat)
  let cfStd := stdize_rows b.cfData s.meanData s.stdData
  let predStd := stdize_rows cfPred s.meanData s.stdData
  let fakeStd := stdize_rows cfPredFake s.meanData s.stdData
  { rmseCf := rmse_loss (matSub cfPred b.cfData)
    rmseCfFakeNoise := rmse_loss (matSub cfPredFake b.cfData)
    rmseCfStd := rmse_loss (matSub predStd cfStd)
    rmseCfStdFakeNoise := rmse_loss (matSub fakeStd cfStd) }

/-! Concrete instances used by witnesses and counterexamples. -/

/-- A model whose functions return empty tensors. -/
def wMethodTrivial : SCMMethod :=
  { aggregatedGraph := fun _ => []
    itePred := fun _ _ _ _ _ _ => []
    specialMask := none }

/-- A data module whose train data has no ground-truth graph. -/
def wDataMissing : NumpyTensorDataModule :=
  { standardize := true
    trainData := { meanData := [0], stdData := [1], trueGraph := none } }

/-- A data module with a one-node ground-truth graph. -/
def wDataOk : NumpyTensorDataModule :=
  { standardize := true
    trainData := { meanData := [1 / 2], stdData := [2], trueGraph := some [[1]] } }

/-- The state a first successful setup call on a fresh instance binds
from wDataOk. -/
def wStateBound : TrueGraphState :=
  { threshold := linspace (1 / 1000) 1 10
    method := { wMethodTrivial with specialMask := some [[1]] }
    isSetup := true
    standardize := true
    meanData := [1 / 2]
    stdData := [2] }

/-- A model producing a fixed two-node continuous graph with one strong
edge. -/
def wMethodBin : SCMMethod :=
  { aggregatedGraph := fun _ => [[0, 1 / 2], [0, 0]]
    itePred := fun _ _ _ _ _ _ => []
    specialMask := none }

def wStateBin : TrueGraphState := initState wMethodBin

/-- A model whose continuous graph has entries 0.1005 and 0.095: both
fall strictly between the sweep thresholds t9 = 101/1100 and
t10 = 1121/11000 of torch.linspace(0.001, 1.0, 100), yet straddle the
fixed threshold 0.1. -/
def cexMethodBest : SCMMethod :=
  { aggregatedGraph := fun _ => [[0, 201 / 2000], [19 / 200, 0]]
    itePred := fun _ _ _ _ _ _ => []
    specialMask := none }

def cexStateBest : TrueGraphState := initState cexMethodBest

/-- A model whose counterfactual prediction is the constant row [3]. -/
def cexMethodCf : SCMMethod :=
  { aggregatedGraph := fun _ => []
    itePred := fun _ _ _ _ _ _ => [[3]]
    specialMask := none }

/-- A non-standardizing state whose cached std is 2, not 1. -/
def cexStateCf : TrueGraphState :=
  { threshold := linspace (1 / 1000) 1 10
    method := cexMethodCf
    isSetup := true
    standardize := false
    meanData := [0]
    stdData := [2] }

def cexBatchCf : CFBatch :=
  { fData := [[0]], nData := [[0]], cfData := [[1]], intIndex := 0, intValues := [0] }

/-- A model whose counterfactual prediction is the constant row [2]. -/
def wMethodCf : SCMMethod :=
  { aggregatedGraph := fun _ => []
    itePred := fun _ _ _ _ _ _ => [[2]]
    specialMask := none }

/-- A non-standardizing state whose cached std is the all-ones vector. -/
def wStateCf : TrueGraphState :=
  { threshold := linspace (1 / 1000) 1 10
    method := wMethodCf
    isSetup := true
    standardize := false
    meanData := [0]
    stdData := [1] }

def wBatchCf : CFBatch :=
  { fData := [[0]], nData := [[0]], cfData := [[1]], intIndex := 0, intValues := [0] }

/-! Helper lemmas. -/

theorem le_foldl_max (l : List ℚ) (b : ℚ) :
    b ≤ l.foldl max b ∧ ∀ x ∈ l, x ≤ l.foldl max b := by
  induction l generalizing b with
  | nil => exact ⟨le_refl b, by intro x hx; cases hx⟩
  | cons y ys ih =>
    constructor
    · simp only [List.foldl_cons]
      exact le_trans (le_max_left b y) (ih (max b y)).1
    · intro x hx
      simp only [List.foldl_cons]
      rcases List.mem_cons.mp hx with hx | hx
      · subst hx
        exact le_trans (le_max_right b x) (ih (max b x)).1
      · exact (ih (max b y)).2 x hx

theorem le_listMax (l : List ℚ) (x : ℚ) (hx : x ∈ l) : x ≤ listMax l := by
  cases l with
  | nil => cases hx
  | cons y ys =>
    rcases List.mem_cons.mp hx with h | h
    · exact h ▸ (le_foldl_max ys y).1
    · exact (le_foldl_max ys y).2 x h

/-! C2 and C9: the gain transform. -/

/-- C2 (counterexample): the raw claim predicts gain 1/(1 - pos_ratio)
at value 1; on the two-node true graph [[1,1],[0,0]] (pos_ratio 1/2) the
code's gain at value 1 is 1, while 1/(1 - pos_ratio) is 2. -/
theorem gain_value_one_cex :
    gainEF (EF.fin (pos_ratio [[1, 1], [0, 0]])) (EF.fin 1) = EF.fin 1 ∧
    EF.fin (1 / (1 - pos_ratio [[1, 1], [0, 0]])) ≠ EF.fin 1 := by
  with_unfolding_all decide

/-- C2 (amended): the gain transform of log_pr_and_roc is
(value - pos_ratio) / ((1 - pos_ratio) * value) with
pos_ratio = sum(true_graph) / nodes^2; when value = pos_ratio with value
nonzero and pos_ratio distinct from 1 the gain is 0, and when value = 1
with pos_ratio distinct from 1 the gain is 1 (not 1/(1 - pos_ratio)). -/
theorem gain_amended (g : List (List ℚ)) (v : ℚ) :
    (v = pos_ratio g → v ≠ 0 → pos_ratio g ≠ 1 →
      gainEF (EF.fin (pos_ratio g)) (EF.fin v) = EF.fin 0) ∧
    (v = 1 → pos_ratio g ≠ 1 →
      gainEF (EF.fin (pos_ratio g)) (EF.fin v) = EF.fin 1) := by
  constructor
  · intro hv h0 h1
    subst hv
    have hne : (1 + -pos_ratio g) * pos_ratio g ≠ 0 := by
      refine mul_ne_zero ?_ h0
      intro hh
      exact h1 (by linarith [hh])
    simp [gainEF, EF.sub, EF.add, EF.neg, EF.mul, EF.div, hne]
  · intro hv h1
    subst hv
    have hne : (1 + -pos_ratio g) ≠ 0 := by
      intro hh
      exact h1 (by linarith [hh])
    have hne2 : (1 + -pos_ratio g) * 1 ≠ 0 := by simpa using hne
    simp [gainEF, EF.sub, EF.add, EF.neg, EF.mul, EF.div, hne, hne2, div_self hne]

/-- C9: with an empty true graph, pos_ratio is 0 and the gain formula is
evaluated with IEEE semantics: it raises nothing and yields NaN (at
value 0, or at infinite or NaN inputs) or the finite value 1, for every
input. -/
theorem gain_zero_total (g : List (List ℚ)) (hz : ∀ row ∈ g, ∀ x ∈ row, x = 0) (v : EF) :
    gainEF (EF.fin (pos_ratio g)) v = EF.nan ∨
    gainEF (EF.fin (pos_ratio g)) v = EF.fin 1 := by
  have hp : pos_ratio g = 0 := by
    have hs : (g.map (fun row => row.sum)).sum = 0 := by
      apply List.sum_eq_zero
      intro x hx
      rcases List.mem_map.mp hx with ⟨row, hrow, hxeq⟩
      exact hxeq ▸ List.sum_eq_zero (hz row hrow)
    simp [pos_ratio, hs]
  rw [hp]
  cases v with
  | nan => left; rfl
  | pinf => left; simp [gainEF, EF.sub, EF.add, EF.neg, EF.mul, EF.div]
  | ninf => left; simp [gainEF, EF.sub, EF.add, EF.neg, EF.mul, EF.div]
  | fin q =>
    by_cases hq : q = 0
    · left; simp [gainEF, EF.sub, EF.add, EF.neg, EF.mul, EF.div, hq]
    · right
      simp [gainEF, EF.sub, EF.add, EF.neg, EF.mul, EF.div, hq]

/-- C9 (witness): the empty two-node graph at input value 1/2. -/
theorem gain_zero_total_checked :
    gainEF (EF.fin (pos_ratio [[0, 0], [0, 0]])) (EF.fin (1 / 2)) = EF.nan ∨
    gainEF (EF.fin (pos_ratio [[0, 0], [0, 0]])) (EF.fin (1 / 2)) = EF.fin 1 :=
  gain_zero_total [[0, 0], [0, 0]] (by decide) (EF.fin (1 / 2))

/-! C4 and C8: setup. -/

/-- C4: on a not-yet-setup instance, a data source whose
train_data.true_graph is None makes setup raise (the AttributeError of
None.to(device), reached before the explicit None check): the run is
aborted rather than continuing. -/
theorem setup_missing_graph (d : NumpyTensorDataModule) (s : TrueGraphState)
    (h0 : s.isSetup = false) (hg : d.trainData.trueGraph = none) :
    setup (some d) s = Except.error SetupError.attributeError := by
  simp [setup, h0, hg]

/-- C4 (witness): a fresh instance and a data module without a graph. -/
theorem setup_missing_graph_checked :
    setup (some wDataMissing) (initState wMethodTrivial) = Except.error SetupError.attributeError :=
  setup_missing_graph wDataMissing (initState wMethodTrivial) rfl rfl

/-- C8: a first successful setup call flips the is_setup guard on, and
every later setup call (with any data module) returns the state
unchanged: the cached standardize flag, mean/std statistics and the
special_mask binding of the true graph are all left as they are. -/
theorem setup_idempotent (dm : Option NumpyTensorDataModule) (s s2 : TrueGraphState)
    (h0 : s.isSetup = false) (hok : setup dm s = Except.ok s2) :
    s2.isSetup = true ∧ ∀ dm2, setup dm2 s2 = Except.ok s2 := by
  rcases dm with _ | d
  · simp [setup, h0] at hok
  · rcases hg : d.trainData.trueGraph with _ | g
    · simp [setup, h0, hg] at hok
    · simp [setup, h0, hg] at hok
      subst hok
      refine ⟨rfl, ?_⟩
      intro dm2
      simp [setup]

/-- C8 (witness): setting up a fresh instance from wDataOk binds
wStateBound, whose guard is on and on which setup is a no-op. -/
theorem setup_idempotent_checked :
    wStateBound.isSetup = true ∧ ∀ dm2, setup dm2 wStateBound = Except.ok wStateBound :=
  setup_idempotent (some wDataOk) (initState wMethodTrivial) wStateBound rfl rfl

/-! C10: the registered threshold buffer. -/

/-- C10: the constructor registers a threshold buffer of 10 linearly
spaced points inside [0.001, 1], but log_graph_metrics builds its own
fresh sweep of 100 points and never reads the buffer: replacing the
buffer by anything leaves every output of log_graph_metrics unchanged. -/
theorem threshold_buffer_unused :
    (∀ m : SCMMethod, (initState m).threshold = linspace (1 / 1000) 1 10) ∧
    (linspace (1 / 1000) 1 10).length = 10 ∧
    (∀ q ∈ linspace (1 / 1000) 1 10, 1 / 1000 ≤ q ∧ q ≤ 1) ∧
    (linspace (1 / 1000) 1 100).length = 100 ∧
    (∀ (s : TrueGraphState) (b : List ℚ) (x tg : List (List ℚ)),
      log_graph_metrics { s with threshold := b } x tg = log_graph_metrics s x tg) := by
  refine ⟨fun m => rfl, by with_unfolding_all decide, by with_unfolding_all decide,
    by with_unfolding_all decide, fun s b x tg => rfl⟩

/-! C5: best-over-thresholds versus fixed-threshold metrics. -/

set_option maxRecDepth 10000 in
/-- C5 (counterexample): with a continuous graph whose entries 0.1005
and 0.095 straddle the fixed threshold 0.1 but fall between two adjacent
points of the 100-point sweep, the fixed-threshold orientation F1 is 1
while the best over the sweep is 2/3: the best metric is strictly below
the fixed-threshold metric. -/
theorem best_lt_pred_cex :
    (log_graph_metrics cexStateBest [[0]] [[0, 1], [0, 0]]).orientF1Best <
      (log_graph_metrics cexStateBest [[0]] [[0, 1], [0, 0]]).orientF1Pred := by
  with_unfolding_all decide

/-- C5 (amended): the best-over-thresholds metrics dominate the F1 of
every graph of the threshold-sweep family (best is the max over that
family); the fixed-threshold 0.1 graph is produced separately and is not
in general one of the sweep graphs, so the fixed-threshold metrics are
not in general dominated. -/
theorem best_ge_sweep (s : TrueGraphState) (x tg g : List (List ℚ))
    (hg : g ∈ (log_graph_metrics s x tg).graphs) :
    adjacency_f1 tg g ≤ (log_graph_metrics s x tg).adjF1Best ∧
    orientation_f1 tg g ≤ (log_graph_metrics s x tg).orientF1Best := by
  constructor
  · exact le_listMax _ _ (List.mem_map_of_mem (adjacency_f1 tg) hg)
  · exact le_listMax _ _ (List.mem_map_of_mem (orientation_f1 tg) hg)

set_option maxRecDepth 10000 in
/-- C5 (witness): the graph binarized at the lowest sweep threshold is
in the sweep family, and its two F1 scores are dominated by the best
metrics. -/
theorem best_ge_sweep_checked :
    adjacency_f1 [[0, 1], [0, 0]] [[0, 1], [0, 0]] ≤
      (log_graph_metrics wStateBin [[0]] [[0, 1], [0, 0]]).adjF1Best ∧
    orientation_f1 [[0, 1], [0, 0]] [[0, 1], [0, 0]] ≤
      (log_graph_metrics wStateBin [[0]] [[0, 1], [0, 0]]).orientF1Best :=
  best_ge_sweep wStateBin [[0]] [[0, 1], [0, 0]] [[0, 1], [0, 0]]
    (by with_unfolding_all decide)

/-! C7: monotonicity of binarization in the threshold. -/

theorem binarize_entry_mono (g : List (List ℚ)) (t1 t2 : ℚ) (ht : t1 ≤ t2) (i j : ℕ)
    (h : entryQ (binarize g t2) i j = 1) : entryQ (binarize g t1) i j = 1 := by
  unfold entryQ binarize at h ⊢
  rcases hg : g[i]? with _ | row
  · simp [List.getD_eq_getElem?_getD, List.getElem?_map, hg] at h
  · simp only [List.getD_eq_getElem?_getD, List.getElem?_map, hg, Option.map_some',
      Option.getD_some] at h ⊢
    rcases hr : row[j]? with _ | v
    · simp [hr] at h
    · simp only [hr, Option.map_some', Option.getD_some] at h ⊢
      by_cases hv : t2 < v
      · simp [lt_of_le_of_lt ht hv]
      · rw [if_neg hv] at h
        exact absurd h (by norm_num)

theorem length_filter_mono {α : Type} (l : List α) (p q : α → Bool)
    (h : ∀ x ∈ l, p x = true → q x = true) :
    (l.filter p).length ≤ (l.filter q).length := by
  induction l with
  | nil => simp
  | cons x xs ih =>
    have ih2 := ih (fun y hy hp => h y (List.mem_cons_of_mem x hy) hp)
    by_cases hp : p x = true
    · have hq := h x (List.mem_cons_self x xs) hp
      simp only [List.filter_cons, hp, hq, if_true]
      simpa using Nat.succ_le_succ ih2
    · simp only [List.filter_cons]
      rw [if_neg (by simpa using hp)]
      by_cases hq : q x = true
      · rw [if_pos (by simpa using hq)]
        exact le_trans ih2 (by simp [Nat.le_succ])
      · rw [if_neg (by simpa using hq)]
        exact ih2

theorem countPos_binarize (g : List (List ℚ)) (t : ℚ) :
    countPos (binarize g t) =
      (g.map (fun row => (row.filter (fun v => decide (t < v))).length)).sum := by
  unfold countPos binarize
  rw [List.map_map]
  apply congrArg List.sum
  apply List.map_congr_left
  intro row hrow
  rw [Function.comp_apply, List.filter_map, List.length_map]
  apply congrArg List.length
  apply List.filter_congr
  intro v hv
  by_cases htv : t < v
  · simp [htv]
  · simp [htv]

/-- C7: predict_graph binarizes the continuous graph by a strict
greater-than comparison, so for thresholds t1 <= t2 every edge predicted
positive at t2 is also predicted positive at t1, and the number of
predicted positive edges cannot increase with the threshold. -/
theorem predict_graph_monotone (s : TrueGraphState) (x : List (List ℚ)) (t1 t2 : ℚ)
    (h : t1 ≤ t2) :
    (∀ i j, entryQ (predict_graph s x t2) i j = 1 → entryQ (predict_graph s x t1) i j = 1) ∧
    countPos (predict_graph s x t2) ≤ countPos (predict_graph s x t1) := by
  constructor
  · intro i j hij
    exact binarize_entry_mono (s.method.aggregatedGraph x) t1 t2 h i j hij
  · unfold predict_graph
    rw [countPos_binarize, countPos_binarize]
    apply List.sum_le_sum
    intro row hrow
    apply length_filter_mono
    intro v hv hp
    simp only [decide_eq_true_eq] at hp ⊢
    exact lt_of_le_of_lt h hp

/-- C7 (witness): thresholds 0.1 and 0.3 on the concrete model. -/
theorem predict_graph_monotone_checked :
    (∀ i j, entryQ (predict_graph wStateBin [[0]] (3 / 10)) i j = 1 →
      entryQ (predict_graph wStateBin [[0]] (1 / 10)) i j = 1) ∧
    countPos (predict_graph wStateBin [[0]] (3 / 10)) ≤
      countPos (predict_graph wStateBin [[0]] (1 / 10)) :=
  predict_graph_monotone wStateBin [[0]] (1 / 10) (3 / 10) (by norm_num)

/-! C1 and C6: the AUC aggregation of log_pr_and_roc. -/

theorem insertByKey_perm {α : Type} (le : α → α → Bool) (x : α) (l : List α) :
    (insertByKey le x l).Perm (x :: l) := by
  induction l with
  | nil => exact List.Perm.refl _
  | cons y ys ih =>
    unfold insertByKey
    by_cases h : le x y = true
    · rw [if_pos h]
    · rw [if_neg h]
      exact List.Perm.trans (List.Perm.cons y ih) (List.Perm.swap x y ys)

theorem sortByKey_perm {α : Type} (le : α → α → Bool) (l : List α) :
    (sortByKey le l).Perm l := by
  induction l with
  | nil => exact List.Perm.refl _
  | cons x xs ih =>
    exact List.Perm.trans (insertByKey_perm le x (sortByKey le xs)) (List.Perm.cons x ih)

theorem mem_prSurvivors (p : EF) (precs recs : List EF) (q : EF × EF) :
    q ∈ prSurvivors p precs recs ↔
      q ∈ prGainPoints p precs recs ∧ (inUnit q.1 = true ∧ inUnit q.2 = true) := by
  unfold prSurvivors prSortedPoints
  rw [List.mem_filter]
  constructor
  · rintro ⟨hq, hb⟩
    rw [Bool.and_eq_true] at hb
    exact ⟨((sortByKey_perm _ _).mem_iff).mp hq, hb.1, hb.2⟩
  · rintro ⟨hq, h1, h2⟩
    refine ⟨((sortByKey_perm _ _).mem_iff).mpr hq, ?_⟩
    rw [Bool.and_eq_true]
    exact ⟨h1, h2⟩

theorem prSurvivors_ne_nil_iff (p : EF) (precs recs : List EF) :
    prSurvivors p precs recs ≠ [] ↔
      ∃ q ∈ prGainPoints p precs recs, inUnit q.1 = true ∧ inUnit q.2 = true := by
  constructor
  · intro hne
    rcases List.exists_mem_of_ne_nil _ hne with ⟨q, hq⟩
    exact ⟨q, ((mem_prSurvivors p precs recs q).mp hq).1,
      ((mem_prSurvivors p precs recs q).mp hq).2⟩
  · rintro ⟨q, hq, h1, h2⟩
    intro hnil
    have hmem : q ∈ prSurvivors p precs recs :=
      (mem_prSurvivors p precs recs q).mpr ⟨hq, h1, h2⟩
    rw [hnil] at hmem
    cases hmem

theorem prGain_guard_iff (p : EF) (precs recs : List EF) :
    ((1 : ℚ) / 2 ≤ ((prSurvivors p precs recs).length : ℚ)) ↔
      prSurvivors p precs recs ≠ [] := by
  constructor
  · intro hle hnil
    rw [hnil] at hle
    norm_num at hle
  · intro hne
    rcases List.exists_mem_of_ne_nil _ hne with ⟨q, hq⟩
    have h1 : 1 ≤ (prSurvivors p precs recs).length := List.length_pos_of_mem hq
    have h2 : (1 : ℚ) ≤ ((prSurvivors p precs recs).length : ℚ) := by exact_mod_cast h1
    linarith

/-- C1: the precision-recall-gain AUC is logged exactly when at least
one (recall-gain, precision-gain) point has both coordinates in [0, 1]
(the survivor set is the AND of the two membership masks over the sorted
points); with at least one survivor, the logged value is the trapezoidal
integral of the curve padded with (0, first surviving precision-gain) in
front and (1, 0) at the back; with zero survivors nothing is logged and
the diagnostic notice is emitted instead of a failure. -/
theorem prGain_auc_iff (p : EF) (precs recs : List EF) :
    ((prGainSection p precs recs).auc.isSome = true ↔
      ∃ q ∈ prGainPoints p precs recs, inUnit q.1 = true ∧ inUnit q.2 = true) ∧
    (prSurvivors p precs recs = [] →
      (prGainSection p precs recs).auc = none ∧ (prGainSection p precs recs).notice = true) ∧
    (prSurvivors p precs recs ≠ [] →
      (prGainSection p precs recs).notice = false ∧
      (prGainSection p precs recs).auc = some (trapzEF
        (((prSurvivors p precs recs).headD (EF.fin 0, EF.fin 0)).2 ::
          (prSurvivors p precs recs).map Prod.snd ++ [EF.fin 0])
        (EF.fin 0 :: (prSurvivors p precs recs).map Prod.fst ++ [EF.fin 1]))) := by
  by_cases hnil : prSurvivors p precs recs = []
  · have hgf : ¬ ((1 : ℚ) / 2 ≤ ((prSurvivors p precs recs).length : ℚ)) := by
      rw [prGain_guard_iff]
      simpa using hnil
    have hgf2 : ¬ (((2 : ℚ))⁻¹ ≤ ((prSurvivors p precs recs).length : ℚ)) := by
      rwa [one_div] at hgf
    have hauc : (prGainSection p precs recs).auc = none := by
      simp [prGainSection, hgf2]
    have hnot : (prGainSection p precs recs).notice = true := by
      simp [prGainSection, hgf2]
    refine ⟨?_, fun _ => ⟨hauc, hnot⟩, fun hne => absurd hnil hne⟩
    rw [hauc]
    simp only [Option.isSome_none]
    constructor
    · intro hh
      exact absurd hh (by simp)
    · intro hex
      exact (((prSurvivors_ne_nil_iff p precs recs).mpr hex) hnil).elim
  · have hgt : (1 : ℚ) / 2 ≤ ((prSurvivors p precs recs).length : ℚ) :=
      (prGain_guard_iff p precs recs).mpr hnil
    have hgt2 : ((2 : ℚ))⁻¹ ≤ ((prSurvivors p precs recs).length : ℚ) := by
      rwa [one_div] at hgt
    have hauc : (prGainSection p precs recs).auc = some (trapzEF
        (((prSurvivors p precs recs).headD (EF.fin 0, EF.fin 0)).2 ::
          (prSurvivors p precs recs).map Prod.snd ++ [EF.fin 0])
        (EF.fin 0 :: (prSurvivors p precs recs).map Prod.fst ++ [EF.fin 1])) := by
      simp [prGainSection, hgt2]
    have hnot : (prGainSection p precs recs).notice = false := by
      simp [prGainSection, hgt2]
    refine ⟨?_, fun hh => absurd hh hnil, fun _ => ⟨hnot, hauc⟩⟩
    rw [hauc]
    simp only [Option.isSome_some, true_iff]
    exact (prSurvivors_ne_nil_iff p precs recs).mp hnil

theorem EF_lt_fin_iff (a b : ℚ) : EF.lt (EF.fin a) (EF.fin b) = true ↔ a < b := by
  simp only [EF.lt, EF.le, Bool.and_eq_true, decide_eq_true_eq, bne_iff_ne, ne_eq,
    Bool.not_eq_true', beq_eq_false_iff_ne, EF.fin.injEq]
  constructor
  · rintro ⟨h1, h2⟩
    exact lt_of_le_of_ne h1 h2
  · intro h
    exact ⟨le_of_lt h, ne_of_lt h⟩

theorem efSum_of_finNonneg (l : List EF) (h : ∀ f ∈ l, isFinNonneg f = true) :
    ∃ s : ℚ, efSum l = EF.fin s ∧ 0 ≤ s ∧ ((0 < s) ↔ ∃ f ∈ l, f ≠ EF.fin 0) := by
  induction l with
  | nil =>
    refine ⟨0, rfl, le_refl 0, ?_⟩
    simp
  | cons x xs ih =>
    rcases ih (fun f hf => h f (List.mem_cons_of_mem x hf)) with ⟨s, hs, hs0, hiff⟩
    have hx := h x (List.mem_cons_self x xs)
    rcases x with _ | _ | _ | q
    · simp [isFinNonneg] at hx
    · simp [isFinNonneg] at hx
    · simp [isFinNonneg] at hx
    · simp only [isFinNonneg, decide_eq_true_eq] at hx
      refine ⟨q + s, ?_, add_nonneg hx hs0, ?_⟩
      · simp [efSum, hs, EF.add]
      · constructor
        · intro hpos
          by_cases hq : q = 0
          · subst hq
            rcases hiff.mp (by linarith) with ⟨f, hf, hfne⟩
            exact ⟨f, List.mem_cons_of_mem _ hf, hfne⟩
          · refine ⟨EF.fin q, List.mem_cons_self _ _, ?_⟩
            simp [hq]
        · rintro ⟨f, hf, hfne⟩
          rcases List.mem_cons.mp hf with hfx | hfxs
          · subst hfx
            have hq : q ≠ 0 := by
              intro hq0
              apply hfne
              rw [hq0]
            have hqpos : 0 < q := lt_of_le_of_ne hx (Ne.symm hq)
            linarith
          · have hspos : 0 < s := hiff.mpr ⟨f, hfxs, hfne⟩
            linarith

/-- C6: the recall-fallout AUC of log_pr_and_roc is computed on the
pairs sorted by ascending fallout with recall in lockstep and no gain
transform, and is logged (as the trapezoidal integral of the curve
padded with a (0,0) front and (1,1) back endpoint) exactly when the
fallout values are not uniformly zero; an all-zero fallout tensor skips
the metric silently, without raising. -/
theorem roc_logged_iff (fallouts recalls : List EF)
    (hlen : fallouts.length = recalls.length)
    (hfin : ∀ f ∈ fallouts, isFinNonneg f = true) :
    ((rocSection fallouts recalls).isSome = true ↔ ¬ ∀ f ∈ fallouts, f = EF.fin 0) ∧
    (∀ v, rocSection fallouts recalls = some v →
      v = trapzEF (EF.fin 0 :: (rocSorted fallouts recalls).map Prod.snd ++ [EF.fin 1])
        (EF.fin 0 :: (rocSorted fallouts recalls).map Prod.fst ++ [EF.fin 1])) := by
  have hperm : ((rocSorted fallouts recalls).map Prod.fst).Perm fallouts := by
    have h1 := (sortByKey_perm (fun u v => efKeyLE u.1 v.1) (fallouts.zip recalls)).map Prod.fst
    rw [List.map_fst_zip fallouts recalls (le_of_eq hlen)] at h1
    exact h1
  have hfin2 : ∀ f ∈ (rocSorted fallouts recalls).map Prod.fst, isFinNonneg f = true :=
    fun f hf => hfin f (hperm.mem_iff.mp hf)
  rcases efSum_of_finNonneg _ hfin2 with ⟨s, hs, hs0, hiff⟩
  have hlt : EF.lt (EF.fin 0) (efSum ((rocSorted fallouts recalls).map Prod.fst)) = true ↔
      ¬ ∀ f ∈ fallouts, f = EF.fin 0 := by
    rw [hs, EF_lt_fin_iff, hiff]
    constructor
    · rintro ⟨f, hf, hfne⟩
      intro hall
      exact hfne (hall f (hperm.mem_iff.mp hf))
    · intro hall
      rcases not_forall.mp hall with ⟨f, hf⟩
      rcases Classical.not_imp.mp hf with ⟨hmem, hne⟩
      exact ⟨f, hperm.mem_iff.mpr hmem, hne⟩
  constructor
  · by_cases hc : EF.lt (EF.fin 0) (efSum ((rocSorted fallouts recalls).map Prod.fst)) = true
    · have hsome : rocSection fallouts recalls = some
          (trapzEF (EF.fin 0 :: (rocSorted fallouts recalls).map Prod.snd ++ [EF.fin 1])
            (EF.fin 0 :: (rocSorted fallouts recalls).map Prod.fst ++ [EF.fin 1])) := by
        simp [rocSection, hc]
      rw [hsome]
      simp only [Option.isSome_some, true_iff]
      exact hlt.mp hc
    · have hnone : rocSection fallouts recalls = none := by
        simp [rocSection, hc]
      rw [hnone]
      simp only [Option.isSome_none]
      constructor
      · intro hh
        exact absurd hh (by simp)
      · intro hex
        exact absurd (hlt.mpr hex) hc
  · intro v hv
    by_cases hc : EF.lt (EF.fin 0) (efSum ((rocSorted fallouts recalls).map Prod.fst)) = true
    · have hsome : rocSection fallouts recalls = some
          (trapzEF (EF.fin 0 :: (rocSorted fallouts recalls).map Prod.snd ++ [EF.fin 1])
            (EF.fin 0 :: (rocSorted fallouts recalls).map Prod.fst ++ [EF.fin 1])) := by
        simp [rocSection, hc]
      rw [hsome] at hv
      exact (Option.some_inj.mp hv).symm
    · have hnone : rocSection fallouts recalls = none := by
        simp [rocSection, hc]
      rw [hnone] at hv
      cases hv

/-- C6 (witness): one zero and one nonzero fallout value. -/
theorem roc_logged_checked :
    ((rocSection [EF.fin 0, EF.fin (1 / 2)] [EF.fin 0, EF.fin 1]).isSome = true ↔
      ¬ ∀ f ∈ [EF.fin 0, EF.fin (1 / 2)], f = EF.fin 0) ∧
    (∀ v, rocSection [EF.fin 0, EF.fin (1 / 2)] [EF.fin 0, EF.fin 1] = some v →
      v = trapzEF
        (EF.fin 0 ::
          (rocSorted [EF.fin 0, EF.fin (1 / 2)] [EF.fin 0, EF.fin 1]).map Prod.snd ++ [EF.fin 1])
        (EF.fin 0 ::
          (rocSorted [EF.fin 0, EF.fin (1 / 2)] [EF.fin 0, EF.fin 1]).map Prod.fst ++ [EF.fin 1])) :=
  roc_logged_iff [EF.fin 0, EF.fin (1 / 2)] [EF.fin 0, EF.fin 1] rfl
    (by with_unfolding_all decide)

/-! C3: the counterfactual test step. -/

theorem zipWith_div_ones (r : List ℚ) (n : ℕ) (h : r.length ≤ n) :
    List.zipWith (fun x sd => x / sd) r (List.replicate n 1) = r := by
  induction r generalizing n with
  | nil => simp
  | cons a as ih =>
    cases n with
    | zero => simp at h
    | succ m =>
      simp only [List.replicate_succ, List.zipWith_cons_cons, div_one]
      rw [ih m (by simpa using h)]

theorem zipWith_sub_sub (p c m : List ℚ) (hp : p.length = m.length) (hc : c.length = m.length) :
    List.zipWith (fun x y => x - y)
      (List.zipWith (fun x mu => x - mu) p m)
      (List.zipWith (fun x mu => x - mu) c m) = List.zipWith (fun x y => x - y) p c := by
  induction m generalizing p c with
  | nil =>
    rw [List.length_eq_zero.mp hp, List.length_eq_zero.mp hc]
    simp
  | cons mu ms ih =>
    cases p with
    | nil => simp at hp
    | cons a as =>
      cases c with
      | nil => simp at hc
      | cons bq bs =>
        simp only [List.zipWith_cons_cons]
        rw [ih as bs (by simpa using hp) (by simpa using hc)]
        congr 1
        ring

theorem stdize_row_ones_sub (r s m : List ℚ) (hr : r.length = m.length)
    (hs : s.length = m.length) :
    List.zipWith (fun x y => x - y)
      (List.zipWith (fun x sd => x / sd)
        (List.zipWith (fun x mu => x - mu) r m) (List.replicate m.length 1))
      (List.zipWith (fun x sd => x / sd)
        (List.zipWith (fun x mu => x - mu) s m) (List.replicate m.length 1)) =
    List.zipWith (fun x y => x - y) r s := by
  rw [zipWith_div_ones _ _ (by simp [hr]), zipWith_div_ones _ _ (by simp [hs]),
    zipWith_sub_sub r s m hr hs]

theorem matSub_stdize (p c : List (List ℚ)) (m : List ℚ)
    (hp : ∀ r ∈ p, r.length = m.length) (hc : ∀ r ∈ c, r.length = m.length) :
    matSub (stdize_rows p m (List.replicate m.length 1))
      (stdize_rows c m (List.replicate m.length 1)) = matSub p c := by
  induction p generalizing c with
  | nil => simp [matSub, stdize_rows]
  | cons r rs ih =>
    cases c with
    | nil => simp [matSub, stdize_rows]
    | cons s ss =>
      have h1 := stdize_row_ones_sub r s m (hp r (List.mem_cons_self r rs))
        (hc s (List.mem_cons_self s ss))
      have h2 := ih ss (fun q hq => hp q (List.mem_cons_of_mem r hq))
        (fun q hq => hc q (List.mem_cons_of_mem s hq))
      simp only [stdize_rows, List.map_cons, matSub, List.zipWith_cons_cons] at h2 ⊢
      rw [h2, h1]

/-- C3 (amended): with standardize off, the substitutes passed to
ite_prediction are exactly the zero and one tensors; the "standardized"
RMSE outputs however divide by the cached std_data, so they equal the
raw ones exactly when that cached std_data is the all-ones tensor (for
shape-consistent batches and predictions). -/
theorem cf_std_eq_raw (s : TrueGraphState) (b : CFBatch)
    (hstd : s.standardize = false)
    (hones : s.stdData = List.replicate s.meanData.length 1)
    (hcf : ∀ r ∈ b.cfData, r.length = s.meanData.length)
    (hpredFake : ∀ r ∈ s.method.itePred b.fData (cf_mean_used s) (cf_std_used s) b.intIndex
        b.intValues none, r.length = s.meanData.length)
    (hpred : ∀ r ∈ s.method.itePred b.fData (cf_mean_used s) (cf_std_used s) b.intIndex
        b.intValues (some b.nData), r.length = s.meanData.length) :
    cf_mean_used s = List.replicate s.meanData.length 0 ∧
    cf_std_used s = List.replicate s.stdData.length 1 ∧
    (test_step_cf s b).rmseCfStd = (test_step_cf s b).rmseCf ∧
    (test_step_cf s b).rmseCfStdFakeNoise = (test_step_cf s b).rmseCfFakeNoise := by
  refine ⟨by simp [cf_mean_used, hstd], by simp [cf_std_used, hstd], ?_, ?_⟩
  · simp only [test_step_cf, hstd, Bool.false_eq_true, if_false]
    rw [hones]
    exact congrArg rmse_loss (matSub_stdize _ _ _ hpred hcf)
  · simp only [test_step_cf, hstd, Bool.false_eq_true, if_false]
    rw [hones]
    exact congrArg rmse_loss (matSub_stdize _ _ _ hpredFake hcf)

/-- C3 (witness): the all-ones cached std, a one-sample batch and a
constant counterfactual predictor. -/
theorem cf_std_eq_raw_checked :
    cf_mean_used wStateCf = List.replicate wStateCf.meanData.length 0 ∧
    cf_std_used wStateCf = List.replicate wStateCf.stdData.length 1 ∧
    (test_step_cf wStateCf wBatchCf).rmseCfStd = (test_step_cf wStateCf wBatchCf).rmseCf ∧
    (test_step_cf wStateCf wBatchCf).rmseCfStdFakeNoise =
      (test_step_cf wStateCf wBatchCf).rmseCfFakeNoise :=
  cf_std_eq_raw wStateCf wBatchCf rfl rfl (by decide) (by decide) (by decide)

theorem rmse_loss_single (c : ℚ) (h : 0 ≤ c) : rmse_loss [[c]] = (c : ℝ) := by
  unfold rmse_loss listMeanQ
  simp only [List.map_cons, List.map_nil, List.sum_cons, List.sum_nil, List.length_cons,
    List.length_nil]
  norm_num
  rw [show ((c : ℝ) * (c : ℝ)) = (c : ℝ) ^ 2 by ring]
  exact Real.sqrt_sq (by exact_mod_cast h)

/-- C3 (counterexample): with standardize False but a cached std_data of
2, the "standardized" counterfactual RMSE is 1 while the raw one is 2:
they are not numerically equal for every batch, because the
standardized outputs are computed with the cached statistics, not with
the zero/one substitutes. -/
theorem cf_std_neq_raw_cex :
    cexStateCf.standardize = false ∧
    (test_step_cf cexStateCf cexBatchCf).rmseCfStd ≠
      (test_step_cf cexStateCf cexBatchCf).rmseCf := by
  refine ⟨rfl, ?_⟩
  have hm : matSub [[(3 : ℚ)]] [[1]] = [[2]] := by norm_num [matSub]
  have hm2 : matSub (stdize_rows [[(3 : ℚ)]] [0] [2]) (stdize_rows [[(1 : ℚ)]] [0] [2]) =
      [[1]] := by norm_num [matSub, stdize_rows]
  have h2 : (test_step_cf cexStateCf cexBatchCf).rmseCf = 2 := by
    show rmse_loss (matSub [[(3 : ℚ)]] [[1]]) = 2
    rw [hm, rmse_loss_single 2 (by norm_num)]
    norm_num
  have h1 : (test_step_cf cexStateCf cexBatchCf).rmseCfStd = 1 := by
    show rmse_loss (matSub (stdize_rows [[(3 : ℚ)]] [0] [2])
      (stdize_rows [[(1 : ℚ)]] [0] [2])) = 1
    rw [hm2, rmse_loss_single 1 (by norm_num)]
    norm_num
  rw [h1, h2]
  norm_num
